import Mathlib

/-!
# Verification of the observation (de)structuring layer of `rld`

A shallow embedding of `src/rld/model.py`.

Conventions of the embedding:

* A numpy array / torch tensor is modelled as a `Tensor`: a shape (list of
  dimension extents) plus its elements in row-major order.  Scalar values are
  modelled as `Rat`; the functions under verification only move values around
  (flatten, concatenate, split, reshape, stack), they never compute with them,
  so the `float32` coercion in `pack_array` is value-preserving in the model.
* A gym `Space` is either a `box` (gym `Box`, carrying its shape), a `dict`
  (gym `Dict`, carrying the ordered `spaces` mapping of names to sub-spaces),
  or `other` (any space class outside `{Box, Dict}`, e.g. `Discrete`,
  identified by its class name).
* Python exceptions are modelled with `Except Err`; `Err.spaceNotSupported`
  is the `SpaceNotSupported` exception of `rld.exception`, whose payload is
  the Python object it was raised with - either a space, or (through the
  key-iteration behaviour of `_packed_size`, see below) a key string.
  Numpy/torch errors (`ValueError`, `RuntimeError`, ...) and `KeyError` are
  modelled by the remaining constructors; the functions under verification
  never catch exceptions, matching `Except` bind.
* A structured observation (`ObsLike` / `ObsTensorLike`) is an `Obs`: a leaf
  array/tensor or an ordered string-keyed mapping (`OrderedDict`).
-/

namespace Rld

/-- A numpy array or torch tensor: a shape and the elements in row-major
order.  `t.data.length = t.shape.prod` holds for every array the Python
runtime can actually build; the embedding keeps that as a separate
well-formedness predicate `Tensor.wf`. -/
structure Tensor where
  shape : List Nat
  data : List Rat
deriving DecidableEq, Repr

/-- `t.data.length = t.shape.prod`: the flat data matches the shape. -/
def Tensor.wf (t : Tensor) : Bool :=
  t.data.length == t.shape.prod

/-- `obs.ndim`. -/
def Tensor.ndim (t : Tensor) : Nat := t.shape.length

mutual
/-- A gym space, restricted to what `rld` can meet: `Box` (a flat numeric
block with a shape), `Dict` (an ordered mapping of named sub-spaces), and
any other space class (`other`, identified by its class name). -/
inductive Space where
  | box (shape : List Nat)
  | dict (spaces : SpaceList)
  | other (name : String)

/-- The ordered `spaces` attribute of a gym `Dict`: `(name, sub-space)`
pairs in declaration order. -/
inductive SpaceList where
  | nil
  | cons (name : String) (s : Space) (rest : SpaceList)
end

deriving instance DecidableEq for Space, SpaceList
deriving instance Repr for Space, SpaceList

/-- `isinstance(space, Box)`. -/
def Space.isBox : Space → Bool
  | .box _ => true
  | _ => false

mutual
/-- A structured observation over the array/tensor substrate: a leaf array
or an ordered string-keyed mapping (`OrderedDict`). -/
inductive Obs where
  | arr (t : Tensor)
  | map (entries : ObsEntries)

/-- The ordered entries of a mapping observation. -/
inductive ObsEntries where
  | nil
  | cons (name : String) (v : Obs) (rest : ObsEntries)
end

deriving instance DecidableEq for Obs, ObsEntries
deriving instance Repr for Obs, ObsEntries

/-- A Python exception escaping the functions under verification.
`spaceNotSupported` is `rld.exception.SpaceNotSupported`, with the object it
was raised on: `Sum.inl` a space, `Sum.inr` a key string (the latter arises
in `_packed_size`, which iterates over a `Dict`'s keys).  `keyError` is
`KeyError` from `obs[name]`.  `valueError` collects the numpy/torch errors
(reshape size mismatch, `np.concatenate([])`, `torch.split` size mismatch,
`torch.stack` shape mismatch, indexing a 0-d tensor, structure mismatch in
`tree.map_structure`). -/
inductive Err where
  | spaceNotSupported (x : Space ⊕ String)
  | keyError (name : String)
  | valueError
deriving DecidableEq, Repr

/-- `obs[name]` on an ordered mapping: the value under the first matching
key (keys are unique in practice). -/
def lookupEntry : ObsEntries → String → Option Obs
  | .nil, _ => none
  | .cons k v rest, name => if k = name then some v else lookupEntry rest name

/-- The keys of a `SpaceList`, in declaration order. -/
def SpaceList.names : SpaceList → List String
  | .nil => []
  | .cons k _ rest => k :: SpaceList.names rest

/-- The keys of an `ObsEntries`, in order. -/
def ObsEntries.names : ObsEntries → List String
  | .nil => []
  | .cons k _ rest => k :: ObsEntries.names rest

mutual
/-- `pack_array(obs, space)` (model.py lines 91-98).  `Box`:
`np.asarray(obs, dtype=np.float32).flatten()` - the leaf's elements in
row-major order (a non-array leaf under a `Box` fails the float coercion).
`Dict`: packs `obs[name]` for each `(name, s)` in `space.spaces.items()`,
in declaration order, then `np.concatenate(packed_values)` (which raises
`ValueError` on an empty list).  Any other space: `raise
SpaceNotSupported(space)`. -/
def pack_array (o : Obs) : Space → Except Err (List Rat)
  | .box _ =>
    match o with
    | .arr t => .ok t.data
    | .map _ => .error .valueError
  | .dict sps =>
    match o with
    | .map entries =>
      match pack_array_items entries sps with
      | .error e => .error e
      | .ok [] => .error .valueError
      | .ok packed => .ok packed.flatten
    | .arr _ => .error .valueError
  | sp => .error (.spaceNotSupported (.inl sp))

/-- The list comprehension `[pack_array(obs[name], s) for name, s in
space.spaces.items()]`: evaluated left to right, the first exception
propagates. -/
def pack_array_items (entries : ObsEntries) : SpaceList → Except Err (List (List Rat))
  | .nil => .ok []
  | .cons name s rest =>
    match lookupEntry entries name with
    | none => .error (.keyError name)
    | some o =>
      match pack_array o s with
      | .error e => .error e
      | .ok v =>
        match pack_array_items entries rest with
        | .error e => .error e
        | .ok vs => .ok (v :: vs)
end

/-- `_packed_size` applied to one element yielded by `for s in space.spaces`
(model.py line 154).  `space.spaces` is an `OrderedDict`, so iterating it
yields the KEY STRINGS, not the sub-spaces; a string matches neither
`isinstance(space, Box)` nor `isinstance(space, Dict)`, so the call always
reaches `raise SpaceNotSupported(space)` with the key string as payload. -/
def _packed_size_of_key (k : String) : Except Err Nat :=
  .error (.spaceNotSupported (.inr k))

/-- The list comprehension `[_packed_size(s) for s in space.spaces]` of
model.py line 154, where `s` ranges over the keys. -/
def _packed_size_keys : SpaceList → Except Err (List Nat)
  | .nil => .ok []
  | .cons k _ rest =>
    match _packed_size_of_key k with
    | .error e => .error e
    | .ok n =>
      match _packed_size_keys rest with
      | .error e => .error e
      | .ok ns => .ok (n :: ns)

/-- `_packed_size(space)` (model.py lines 150-156).  `Box`:
`int(np.prod(space.shape))` (`np.prod([]) = 1.0`, matching `List.prod`).
`Dict`: `int(sum([_packed_size(s) for s in space.spaces]))` - note the
iteration is over the KEYS (see `_packed_size_of_key`), so any nonempty
`Dict` raises `SpaceNotSupported` on its first key.  Any other space:
`raise SpaceNotSupported(space)`. -/
def _packed_size : Space → Except Err Nat
  | .box shape => .ok shape.prod
  | .dict sps =>
    match _packed_size_keys sps with
    | .error e => .error e
    | .ok ns => .ok ns.sum
  | sp => .error (.spaceNotSupported (.inl sp))

/-- The list comprehension `[_packed_size(s) for s in space.spaces.values()]`
(model.py lines 105 and 128; these, unlike line 154, iterate the values). -/
def sizes_of_values : SpaceList → Except Err (List Nat)
  | .nil => .ok []
  | .cons _ s rest =>
    match _packed_size s with
    | .error e => .error e
    | .ok n =>
      match sizes_of_values rest with
      | .error e => .error e
      | .ok ns => .ok (n :: ns)

mutual
/-- `unpack_array(obs, space)` (model.py lines 101-113).  `Box`:
`np.asarray(obs).reshape(space.shape)` - reshape raises `ValueError` unless
the element counts agree.  `Dict`: computes all child sizes (raising if any
`_packed_size` call raises), then `np.split(obs, np.cumsum(sizes)[:-1])` -
consecutive chunks of the declared sizes, the LAST chunk taking the whole
remainder of the input - and recursively unpacks each chunk against the
corresponding child, assembling an `OrderedDict` in declaration order.
Any other space: `raise SpaceNotSupported(space)`. -/
def unpack_array (data : List Rat) : Space → Except Err Obs
  | .box shape =>
    if data.length = shape.prod then .ok (.arr ⟨shape, data⟩) else .error .valueError
  | .dict sps =>
    match sizes_of_values sps with
    | .error e => .error e
    | .ok sizes =>
      match unpack_array_split data sizes sps with
      | .error e => .error e
      | .ok entries => .ok (.map entries)
  | sp => .error (.spaceNotSupported (.inl sp))

/-- The zip of the `np.split` chunks with `space.spaces.items()` and the
recursive unpacking of each chunk (model.py lines 106-111).  `np.split(obs,
np.cumsum(sizes)[:-1])` yields, for declared sizes `[s1, ..., sn]`, the
chunks `obs[0:s1], obs[s1:s1+s2], ..., obs[s1+...+s_{n-1}:]` - slicing
clamps at the end of the input, and the last chunk takes everything that
remains. -/
def unpack_array_split (data : List Rat) (sizes : List Nat) : SpaceList → Except Err ObsEntries
  | .nil => .ok .nil
  | .cons name s .nil =>
    match unpack_array data s with
    | .error e => .error e
    | .ok v => .ok (.cons name v .nil)
  | .cons name s rest =>
    match sizes with
    | [] => .ok .nil
    | sz :: szs =>
      match unpack_array (data.take sz) s with
      | .error e => .error e
      | .ok v =>
        match unpack_array_split (data.drop sz) szs rest with
        | .error e => .error e
        | .ok vs => .ok (.cons name v vs)
end

mutual
/-- `O` is a valid structured observation for descriptor `D`: leaf arrays
sit under `Box` sub-descriptors with exactly the declared shape, and
mapping observations carry exactly the declared keys in declared order,
each value valid for its sub-descriptor. -/
def validObs : Space → Obs → Bool
  | .box shape, .arr t => t.shape == shape && t.data.length == shape.prod
  | .dict sps, .map entries => validEntries sps entries
  | _, _ => false

/-- Entry-wise validity of a mapping observation against a `Dict`'s
declared `(name, sub-space)` pairs. -/
def validEntries : SpaceList → ObsEntries → Bool
  | .nil, .nil => true
  | .cons k s rest, .cons k2 v rest2 => k == k2 && validObs s v && validEntries rest rest2
  | _, _ => false
end

/-- `obs[b]`: indexing a tensor along its leading dimension.  The result
drops the leading dimension; for a row-major layout the slice is the `b`-th
contiguous block of `shape.tail.prod` elements.  (Python raises on a 0-d
tensor; the callers in the source only index after a successful
`obs.size(0)`, so rank 0 never reaches this operation.) -/
def Tensor.slice (t : Tensor) (b : Nat) : Tensor :=
  ⟨t.shape.tail, (t.data.drop (b * t.shape.tail.prod)).take t.shape.tail.prod⟩

/-- `obs.reshape(space.shape)` (torch) / `np.asarray(obs).reshape(...)`
(numpy): succeeds exactly when the element counts agree; row-major order of
the elements is unchanged. -/
def torchReshape (t : Tensor) (shape : List Nat) : Except Err Tensor :=
  if t.data.length = shape.prod then .ok ⟨shape, t.data⟩ else .error .valueError

/-- The chunks produced by `torch.split(obs, sizes)` along dimension 0:
consecutive blocks of `sz * tailShape.prod` elements, each of shape
`sz :: tailShape`. -/
def splitChunks (tailShape : List Nat) : List Nat → List Rat → List Tensor
  | [], _ => []
  | sz :: szs, data =>
    ⟨sz :: tailShape, data.take (sz * tailShape.prod)⟩ ::
      splitChunks tailShape szs (data.drop (sz * tailShape.prod))

/-- `torch.split(obs, sizes)`: splits along dimension 0 into chunks of the
given sizes.  Raises on a 0-d tensor, and raises unless the sizes sum to
the extent of dimension 0. -/
def torchSplit (t : Tensor) (sizes : List Nat) : Except Err (List Tensor) :=
  match t.shape with
  | [] => .error .valueError
  | d :: ds =>
    if sizes.sum = d then .ok (splitChunks ds sizes t.data) else .error .valueError

/-- `torch.stack(elems, dim=0)`: requires a nonempty list of equal-shape
tensors and produces a tensor with a new leading dimension of that length,
the inputs laid out consecutively. -/
def torchStack : List Tensor → Except Err Tensor
  | [] => .error .valueError
  | t :: ts =>
    if ts.all fun u => u.shape == t.shape then
      .ok ⟨(ts.length + 1) :: t.shape, ((t :: ts).map Tensor.data).flatten⟩
    else .error .valueError

/-- True for the empty mapping. -/
def ObsEntries.isNil : ObsEntries → Bool
  | .nil => true
  | _ => false

/-- `tree.map_structure` preparation: all structures must be leaf tensors
(else the structures disagree and the traversal raises). -/
def leavesOf : List Obs → Except Err (List Tensor)
  | [] => .ok []
  | .arr t :: rest =>
    match leavesOf rest with
    | .error e => .error e
    | .ok ts => .ok (t :: ts)
  | .map _ :: _ => .error .valueError

/-- `tree.map_structure` preparation: all structures must be mappings. -/
def entriesOf : List Obs → Except Err (List ObsEntries)
  | [] => .ok []
  | .map es :: rest =>
    match entriesOf rest with
    | .error e => .error e
    | .ok ess => .ok (es :: ess)
  | .arr _ :: _ => .error .valueError

/-- `tree.map_structure` traversal of mappings: every structure must have
the same next key `k`; returns the values under `k` and the remaining
entries of each structure. -/
def entryHeads (k : String) : List ObsEntries → Except Err (List Obs × List ObsEntries)
  | [] => .ok ([], [])
  | .cons k2 v rest :: more =>
    if k2 = k then
      match entryHeads k more with
      | .error e => .error e
      | .ok (vs, rs) => .ok (v :: vs, rest :: rs)
    else .error .valueError
  | .nil :: _ => .error .valueError

mutual
/-- `tree.map_structure(lambda *elems: torch.stack(elems, dim=0), *obs_list)`
with `obs_list = first :: rest` (model.py line 147): requires all structures
to agree (same leaf/mapping alternation and the same keys), and replaces
each tuple of corresponding leaves by their `torch.stack`. -/
def tree_map_stack : Obs → List Obs → Except Err Obs
  | .arr t, rest =>
    match leavesOf rest with
    | .error e => .error e
    | .ok ts =>
      match torchStack (t :: ts) with
      | .error e => .error e
      | .ok stacked => .ok (.arr stacked)
  | .map es, rest =>
    match entriesOf rest with
    | .error e => .error e
    | .ok ess =>
      match tree_map_stack_entries es ess with
      | .error e => .error e
      | .ok merged => .ok (.map merged)

/-- Key-wise traversal of `tree.map_structure` over mappings, in the order
of the first structure; all other structures must carry the same keys in
the same order. -/
def tree_map_stack_entries : ObsEntries → List ObsEntries → Except Err ObsEntries
  | .nil, ess => if ess.all ObsEntries.isNil then .ok .nil else .error .valueError
  | .cons k v rest, ess =>
    match entryHeads k ess with
    | .error e => .error e
    | .ok (vs, rs) =>
      match tree_map_stack v vs with
      | .error e => .error e
      | .ok mv =>
        match tree_map_stack_entries rest rs with
        | .error e => .error e
        | .ok mrest => .ok (.cons k mv mrest)
end

/-- `_merge_unpacked_batch(obs_list)` (model.py lines 146-147):
`tree.map_structure(lambda *elems: torch.stack(elems, dim=0), *obs_list)`.
With an empty `obs_list` the splat passes `map_structure` no structure at
all and it raises. -/
def _merge_unpacked_batch : List Obs → Except Err Obs
  | [] => .error .valueError
  | first :: rest => tree_map_stack first rest

/-- An upper bound on the ranks of a list of tensors (used only as a
termination measure for the `unpack_tensor` recursion). -/
def ranksBound (ts : List Tensor) : Nat :=
  ts.foldr (fun t m => max t.ndim m) 0

theorem ranksBound_cons (t : Tensor) (ts : List Tensor) :
    ranksBound (t :: ts) = max t.ndim (ranksBound ts) := rfl

theorem ranksBound_map_slice (t : Tensor) (l : List Nat) :
    ranksBound (l.map fun b => t.slice b) ≤ t.shape.tail.length := by
  induction l with
  | nil => exact Nat.zero_le _
  | cons b bs ih =>
    simp only [List.map_cons, ranksBound_cons]
    exact max_le (Nat.le_refl _) ih

theorem ranksBound_splitChunks (ds : List Nat) (szs : List Nat) (data : List Rat) :
    ranksBound (splitChunks ds szs data) ≤ ds.length + 1 := by
  induction szs generalizing data with
  | nil => exact Nat.zero_le _
  | cons sz szs ih =>
    simp only [splitChunks, ranksBound_cons]
    exact max_le (Nat.le_refl _) (ih _)

theorem torchSplit_ranksBound {t : Tensor} {sizes : List Nat} {segs : List Tensor}
    (h : torchSplit t sizes = .ok segs) : ranksBound segs ≤ t.ndim := by
  obtain ⟨sh, data⟩ := t
  cases sh with
  | nil => simp [torchSplit] at h
  | cons d ds =>
    simp only [torchSplit] at h
    split_ifs at h
    injection h with h
    rw [← h]
    have := ranksBound_splitChunks ds sizes data
    simp only [Tensor.ndim, List.length_cons]
    omega

attribute [irreducible] ranksBound

theorem sizeOf_spaces_lt_dict (sps : SpaceList) : sizeOf sps < sizeOf (Space.dict sps) := by
  simp only [Space.dict.sizeOf_spec]
  omega

theorem sizeOf_head_lt_cons (name : String) (s : Space) (rest : SpaceList) :
    sizeOf s < sizeOf (SpaceList.cons name s rest) := by
  simp only [SpaceList.cons.sizeOf_spec]
  omega

theorem sizeOf_rest_lt_cons (name : String) (s : Space) (rest : SpaceList) :
    sizeOf rest < sizeOf (SpaceList.cons name s rest) := by
  simp only [SpaceList.cons.sizeOf_spec]
  omega

/-- A helper to discharge the lexicographic termination goals of the
`unpack_tensor` recursion. -/
theorem lex4_of {a1 b1 c1 d1 a2 b2 c2 d2 : Nat}
    (h : a1 < a2 ∨ (a1 = a2 ∧ (b1 < b2 ∨ (b1 = b2 ∧ (c1 < c2 ∨ (c1 = c2 ∧ d1 < d2)))))) :
    Prod.Lex (· < ·) (Prod.Lex (· < ·) (Prod.Lex (· < ·) (· < ·)))
      (a1, b1, c1, d1) (a2, b2, c2, d2) := by
  rcases h with h | ⟨rfl, h | ⟨rfl, h | ⟨rfl, h⟩⟩⟩
  · exact Prod.Lex.left _ _ h
  · exact Prod.Lex.right _ (Prod.Lex.left _ _ h)
  · exact Prod.Lex.right _ (Prod.Lex.right _ (Prod.Lex.left _ _ h))
  · exact Prod.Lex.right _ (Prod.Lex.right _ (Prod.Lex.right _ h))

mutual
/-- `unpack_tensor(obs, space)` (model.py lines 116-121): computes
`batch_size = obs.size(0) if obs.ndim > 1 else None` and dispatches to the
batched unpack when a batch dimension is present, to the single unpack
otherwise. -/
def unpack_tensor (obs : Tensor) (sp : Space) : Except Err Obs :=
  if 1 < obs.ndim then _unpack_tensor_batched obs sp
  else _unpack_tensor_single obs sp
termination_by (obs.ndim, sizeOf sp, 3, 0)
decreasing_by
  all_goals exact lex4_of (by omega)

/-- `_unpack_tensor_single(obs, space)` (model.py lines 124-136).  `Box`:
`obs.reshape(space.shape)`.  `Dict`: child sizes via `_packed_size` over
`space.spaces.values()`, then `torch.split(obs, sizes)` and the recursive
`unpack_tensor` on each chunk zipped with `space.spaces.items()`, collected
into an `OrderedDict`.  Any other space: `raise SpaceNotSupported(space)`. -/
def _unpack_tensor_single (obs : Tensor) (sp : Space) : Except Err Obs :=
  match sp with
  | .box shape =>
    match torchReshape obs shape with
    | .error e => .error e
    | .ok t => .ok (.arr t)
  | .dict sps =>
    match sizes_of_values sps with
    | .error e => .error e
    | .ok sizes =>
      match hsp : torchSplit obs sizes with
      | .error e => .error e
      | .ok segs =>
        match unpack_tensor_chunks segs sps with
        | .error e => .error e
        | .ok entries => .ok (.map entries)
  | sp => .error (.spaceNotSupported (.inl sp))
termination_by (obs.ndim, sizeOf sp, 2, 0)
decreasing_by
  all_goals exact lex4_of (by
    have h1 := torchSplit_ranksBound hsp
    have h2 := sizeOf_spaces_lt_dict sps
    omega)

/-- The zip `zip(split_packed, space.spaces.items())` with the recursive
`unpack_tensor` per chunk (model.py lines 130-133); `zip` stops at the
shorter argument. -/
def unpack_tensor_chunks : List Tensor → SpaceList → Except Err ObsEntries
  | _, .nil => .ok .nil
  | [], .cons _ _ _ => .ok .nil
  | seg :: more, .cons name s rest =>
    match unpack_tensor seg s with
    | .error e => .error e
    | .ok v =>
      match unpack_tensor_chunks more rest with
      | .error e => .error e
      | .ok vs => .ok (.cons name v vs)
termination_by segs spl => (ranksBound segs, sizeOf spl, 1, 0)
decreasing_by
  all_goals exact lex4_of (by
    have h1 : seg.ndim ≤ ranksBound (seg :: more) := by
      rw [ranksBound_cons]; exact le_max_left _ _
    have h2 : ranksBound more ≤ ranksBound (seg :: more) := by
      rw [ranksBound_cons]; exact le_max_right _ _
    have h3 := sizeOf_head_lt_cons name s rest
    have h4 := sizeOf_rest_lt_cons name s rest
    omega)

/-- The list comprehension `[unpack_tensor(obs[b], space) for b in
range(batch_size)]` (model.py line 142), evaluated left to right over the
already-materialised slices. -/
def unpack_tensor_slices : List Tensor → Space → Except Err (List Obs)
  | [], _ => .ok []
  | t :: rest, sp =>
    match unpack_tensor t sp with
    | .error e => .error e
    | .ok v =>
      match unpack_tensor_slices rest sp with
      | .error e => .error e
      | .ok vs => .ok (v :: vs)
termination_by ts sp => (ranksBound ts + 1, sizeOf sp, 1, ts.length)
decreasing_by
  all_goals exact lex4_of (by
    have h1 : t.ndim ≤ ranksBound (t :: rest) := by
      rw [ranksBound_cons]; exact le_max_left _ _
    have h2 : ranksBound rest ≤ ranksBound (t :: rest) := by
      rw [ranksBound_cons]; exact le_max_right _ _
    have h3 : rest.length < (t :: rest).length := by simp
    omega)

/-- `_unpack_tensor_batched(obs, space)` (model.py lines 139-143):
`batch_size = obs.size(0)` (raising on a 0-d tensor), then merges the
single unpacks of the slices `obs[0], ..., obs[batch_size - 1]`. -/
def _unpack_tensor_batched (obs : Tensor) (sp : Space) : Except Err Obs :=
  match hsh : obs.shape with
  | [] => .error .valueError
  | n :: tl =>
    match unpack_tensor_slices ((List.range n).map fun b => obs.slice b) sp with
    | .error e => .error e
    | .ok slices => _merge_unpacked_batch slices
termination_by (obs.ndim, sizeOf sp, 2, 0)
decreasing_by
  all_goals exact lex4_of (by
    have h1 := ranksBound_map_slice obs (List.range n)
    have h2 : obs.shape.tail.length + 1 = obs.ndim := by
      simp [Tensor.ndim, hsh]
    omega)
end

/-- The input bundle the wrapped framework model's forward entry point
expects: a structured observation field `"obs"` and a flat observation
field `"obs_flat"` (spec section 6). -/
structure InputDict where
  obs : Obs
  obs_flat : Tensor

/-- The wrapped framework model (`RayModel = ModelV2`), consumed through
the capability contract of spec section 6: a declared observation space
`model.obs_space` whose object may carry an `original_space` attribute
(modelled by the `Option`), and a forward entry point
`model(input_dict, state, seq_lens)` returning a pair whose first element
is the output and whose second is the recurrent state output.  The entry
point is an arbitrary function of the record, so theorems about the
wrapper hold for every wrapped model. -/
structure RayModel where
  obs_space : Space
  original_space : Option Space
  call : InputDict → Option (List Tensor) → Option Tensor → List Rat × List Tensor

/-- `RayModelWrapper.obs_space` (model.py lines 84-88): the model's
`original_space` when the attribute is present, the model's declared
observation space otherwise. -/
def RayModelWrapper.obs_space (m : RayModel) : Space :=
  match m.original_space with
  | some sp => sp
  | none => m.obs_space

/-- `RayModelWrapper.forward` (model.py lines 69-76): when the wrapper's
observation space is a `Box`, the input dict carries
`unpack_tensor(x, obs_space)` as `"obs"` and `x` as `"obs_flat"`;
otherwise it carries `x` itself in both fields.  The wrapped model is then
invoked with `state = None` and `seq_lens = None`, and only the first
element of its result pair is returned. -/
def RayModelWrapper.forward (m : RayModel) (x : Tensor) : Except Err (List Rat) :=
  if (RayModelWrapper.obs_space m).isBox then
    match unpack_tensor x (RayModelWrapper.obs_space m) with
    | .error e => .error e
    | .ok o => .ok (m.call ⟨o, x⟩ none none).1
  else
    .ok (m.call ⟨.arr x, x⟩ none none).1

/-- `Model.flatten_obs` (model.py lines 37-40): returns the observation
unchanged when the model's observation space is a `Box`, and otherwise
delegates to `gym.spaces.flatten` - a function external to the repository,
taken here as an arbitrary function parameter so the theorem holds for every
implementation of it. -/
def Model.flatten_obs (gymFlatten : Space → Obs → Obs) (obs_space : Space) (obs : Obs) : Obs :=
  if obs_space.isBox then obs else gymFlatten obs_space obs

mutual
/-- Every leaf tensor of the structured observation has a leading
dimension of extent `n`. -/
def leadAll (n : Nat) : Obs → Bool
  | .arr t =>
    match t.shape with
    | m :: _ => m == n
    | [] => false
  | .map es => leadAllEntries n es

/-- Entry-wise `leadAll`. -/
def leadAllEntries (n : Nat) : ObsEntries → Bool
  | .nil => true
  | .cons _ v rest => leadAll n v && leadAllEntries n rest
end

mutual
/-- Index every leaf tensor of a structured observation along its leading
dimension (the structured form of `obs[i]`). -/
def sliceAll (i : Nat) : Obs → Obs
  | .arr t => .arr (t.slice i)
  | .map es => .map (sliceAllEntries i es)

/-- Entry-wise `sliceAll`. -/
def sliceAllEntries (i : Nat) : ObsEntries → ObsEntries
  | .nil => .nil
  | .cons k v rest => .cons k (sliceAll i v) (sliceAllEntries i rest)
end

mutual
/-- Every leaf tensor of the structured observation is well-formed. -/
def wfAll : Obs → Bool
  | .arr t => t.wf
  | .map es => wfAllEntries es

/-- Entry-wise `wfAll`. -/
def wfAllEntries : ObsEntries → Bool
  | .nil => true
  | .cons _ v rest => wfAll v && wfAllEntries rest
end

/-- True for a mapping observation, false for a leaf. -/
def Obs.isMapping : Obs → Bool
  | .map _ => true
  | .arr _ => false

/-! ## Concrete instances used by the theorems -/

/-- The spec's running example descriptor:
`NamedMapping([("pos", FlatBlock([2])), ("vel", FlatBlock([1]))])`. -/
def pairSpace : Space :=
  .dict (.cons "pos" (.box [2]) (.cons "vel" (.box [1]) .nil))

/-- The spec's running example observation
`{"pos": [1.0, 2.0], "vel": [3.0]}`. -/
def pairObs : Obs :=
  .map (.cons "pos" (.arr ⟨[2], [1, 2]⟩) (.cons "vel" (.arr ⟨[1], [3]⟩) .nil))

/-- The spec's nested example descriptor:
`NamedMapping([("a", NamedMapping([("x", FlatBlock([1]))])), ("b", FlatBlock([2]))])`. -/
def nestedSpace : Space :=
  .dict (.cons "a" (.dict (.cons "x" (.box [1]) .nil)) (.cons "b" (.box [2]) .nil))

/-- The spec's nested example observation
`{"a": {"x": [5.0]}, "b": [6.0, 7.0]}`. -/
def nestedObs : Obs :=
  .map (.cons "a" (.map (.cons "x" (.arr ⟨[1], [5]⟩) .nil)) (.cons "b" (.arr ⟨[2], [6, 7]⟩) .nil))

/-- A wrapped-model forward entry point that reports whether the `"obs"`
field of its input bundle arrived in structured (mapping) form. -/
def probeIsMapping : InputDict → Option (List Tensor) → Option Tensor → List Rat × List Tensor :=
  fun d _ _ => (if d.obs.isMapping then [1] else [0], [])

/-- A wrapped-model forward entry point that reports the shape of the
`"obs"` field of its input bundle. -/
def probeShapes : InputDict → Option (List Tensor) → Option Tensor → List Rat × List Tensor :=
  fun d _ _ =>
    (match d.obs with
     | .arr t => t.shape.map fun n => (n : Rat)
     | .map _ => [], [])

/-- A wrapped model with a structured (`Dict`) observation space. -/
def modelDictProbe : RayModel :=
  ⟨.dict (.cons "a" (.box [1]) (.cons "b" (.box [1]) .nil)), none, probeIsMapping⟩

/-- A wrapped model with a flat (`Box`, shape `[2, 2]`) observation space. -/
def modelBoxProbe : RayModel :=
  ⟨.box [2, 2], none, probeShapes⟩

/-- A flat two-element input. -/
def xPair : Tensor := ⟨[2], [1, 2]⟩

/-- A flat four-element input. -/
def xQuad : Tensor := ⟨[4], [1, 2, 3, 4]⟩

/-! ## Theorems -/

/-- C2: the claim `size(D) = length(pack(O, D))` fails on the code for
every nonempty `NamedMapping` descriptor: at the spec's own example
descriptor, `pack` yields a block of length 3, while `_packed_size`
iterates over the keys of `space.spaces` instead of its values and raises
`SpaceNotSupported("pos")` instead of returning 3. -/
theorem packed_size_dict_raises :
    validObs pairSpace pairObs = true ∧
    pack_array pairObs pairSpace = .ok [1, 2, 3] ∧
    _packed_size pairSpace = .error (.spaceNotSupported (.inr "pos")) :=
  ⟨rfl, rfl, rfl⟩

/-- C3: the round-trip `unpack(pack(O, D), D) = O` fails on the code for
nested mappings: at the spec's own nested example, packing succeeds with
`[5, 6, 7]` but unpacking raises, because `unpack_array` sizes the child
mapping `{"x": FlatBlock([1])}` with `_packed_size`, which iterates that
child's keys and raises `SpaceNotSupported("x")`. -/
theorem roundtrip_nested_raises :
    validObs nestedSpace nestedObs = true ∧
    pack_array nestedObs nestedSpace = .ok [5, 6, 7] ∧
    unpack_array [5, 6, 7] nestedSpace = .error (.spaceNotSupported (.inr "x")) :=
  ⟨rfl, rfl, rfl⟩

/-- C4: packing a `NamedMapping` concatenates the packed children in
declared order (here `a`'s content `[5]` precedes `b`'s `[6, 7]`), but the
unpack half of the claim fails on the code when a child is itself a
mapping: `size(a)` raises (`_packed_size` iterates the child's keys), and
so does the unpack of the packed block. -/
theorem pack_order_unpack_nested_raises :
    pack_array nestedObs nestedSpace = .ok ([5] ++ [6, 7]) ∧
    pack_array (.map (.cons "x" (.arr ⟨[1], [5]⟩) .nil)) (.dict (.cons "x" (.box [1]) .nil)) =
      .ok [5] ∧
    _packed_size (.dict (.cons "x" (.box [1]) .nil)) = .error (.spaceNotSupported (.inr "x")) ∧
    unpack_array [5, 6, 7] nestedSpace = .error (.spaceNotSupported (.inr "x")) :=
  ⟨rfl, rfl, rfl, rfl⟩

/-- C6: on a descriptor containing an unsupported space variant, `pack`
and `unpack` raise `SpaceNotSupported` naming the offending descriptor,
but the size computation raises `SpaceNotSupported` naming the mapping KEY
(`"a"`) instead of the offending `Discrete` descriptor, because
`_packed_size` iterates `space.spaces` (the keys) rather than its
values. -/
theorem unsupported_kind_error_naming :
    pack_array (.map (.cons "a" (.arr ⟨[1], [1]⟩) .nil))
        (.dict (.cons "a" (.other "Discrete") .nil)) =
      .error (.spaceNotSupported (.inl (.other "Discrete"))) ∧
    unpack_array [1] (.dict (.cons "a" (.other "Discrete") .nil)) =
      .error (.spaceNotSupported (.inl (.other "Discrete"))) ∧
    _packed_size (.dict (.cons "a" (.other "Discrete") .nil)) =
      .error (.spaceNotSupported (.inr "a")) ∧
    (Sum.inr "a" : Space ⊕ String) ≠ Sum.inl (.other "Discrete") :=
  ⟨rfl, rfl, rfl, by decide⟩

/-- C7: when the model's observation space is a bare `Box` at the top
level, `Model.flatten_obs` is a no-op passthrough: it returns the input
observation unchanged, for every input observation and for every
implementation of the external gym flatten. -/
theorem flatten_obs_box_noop (gymFlatten : Space → Obs → Obs) (sp : Space) (obs : Obs)
    (h : sp.isBox = true) : Model.flatten_obs gymFlatten sp obs = obs := by
  simp [Model.flatten_obs, h]

/-- Witness for C7 at a concrete `Box` space, an observation, and a gym
flatten that is not the identity. -/
theorem flatten_obs_box_noop_witness :
    Model.flatten_obs (fun _ _ => .map .nil) (.box [2, 2]) (.arr ⟨[4], [1, 2, 3, 4]⟩) =
      .arr ⟨[4], [1, 2, 3, 4]⟩ :=
  flatten_obs_box_noop (fun _ _ => .map .nil) (.box [2, 2]) (.arr ⟨[4], [1, 2, 3, 4]⟩) rfl

/-- C8: the wrapper's `obs_space` returns the model's original
(pre-flattening) observation space whenever the attribute is present, and
the model's declared observation space otherwise. -/
theorem wrapper_obs_space_spec (m : RayModel) :
    (∀ sp, m.original_space = some sp → RayModelWrapper.obs_space m = sp) ∧
    (m.original_space = none → RayModelWrapper.obs_space m = m.obs_space) := by
  constructor
  · intro sp h
    simp [RayModelWrapper.obs_space, h]
  · intro h
    simp [RayModelWrapper.obs_space, h]

/-- Witness for C8: one model exposing an original space, one without. -/
theorem wrapper_obs_space_spec_witness :
    RayModelWrapper.obs_space ⟨.box [3], some pairSpace, fun _ _ _ => ([], [])⟩ = pairSpace ∧
    RayModelWrapper.obs_space ⟨.box [3], none, fun _ _ _ => ([], [])⟩ = .box [3] :=
  ⟨(wrapper_obs_space_spec _).1 pairSpace rfl, (wrapper_obs_space_spec _).2 rfl⟩

theorem pack_array_items_agree : ∀ (sps : SpaceList) (e1 e2 : ObsEntries),
    (∀ k, k ∈ sps.names → lookupEntry e1 k = lookupEntry e2 k) →
    pack_array_items e1 sps = pack_array_items e2 sps
  | .nil, _, _, _ => rfl
  | .cons k s rest, e1, e2, h => by
    have hk : lookupEntry e1 k = lookupEntry e2 k := h k (by simp [SpaceList.names])
    have ih := pack_array_items_agree rest e1 e2 fun k2 hk2 =>
      h k2 (by simp only [SpaceList.names, List.mem_cons]; exact Or.inr hk2)
    simp only [pack_array_items, hk, ih]
termination_by sps => sizeOf sps

/-- C9: `pack` reads exactly the keys declared in the descriptor from the
observation mapping: two observation mappings that agree on every
descriptor-declared key pack to identical flat blocks, whatever other
(undeclared, silently ignored) keys they carry. -/
theorem pack_array_reads_declared_keys (sps : SpaceList) (e1 e2 : ObsEntries)
    (h : ∀ k, k ∈ sps.names → lookupEntry e1 k = lookupEntry e2 k) :
    pack_array (.map e1) (.dict sps) = pack_array (.map e2) (.dict sps) := by
  simp only [pack_array, pack_array_items_agree sps e1 e2 h]

/-- Witness for C9: the second observation carries an extra undeclared
key `"extra"`, and packs to the same block. -/
theorem pack_array_reads_declared_keys_witness :
    pack_array (.map (.cons "pos" (.arr ⟨[2], [1, 2]⟩) (.cons "vel" (.arr ⟨[1], [3]⟩) .nil)))
        pairSpace =
      pack_array (.map (.cons "pos" (.arr ⟨[2], [1, 2]⟩) (.cons "vel" (.arr ⟨[1], [3]⟩)
        (.cons "extra" (.arr ⟨[5], [9, 9, 9, 9, 9]⟩) .nil)))) pairSpace :=
  pack_array_reads_declared_keys _ _ _ (by
    intro k hk
    simp only [pairSpace, SpaceList.names, List.mem_cons, List.not_mem_nil, or_false] at hk
    rcases hk with rfl | rfl <;> rfl)

/-- C10: whenever the wrapper's forward returns a value, that value is the
FIRST element of the wrapped model's output pair for an invocation whose
recurrent-state and sequence-length arguments are both `None`; the second
element is discarded. -/
theorem forward_state_none_fst (m : RayModel) (x : Tensor) (r : List Rat)
    (h : RayModelWrapper.forward m x = .ok r) :
    ∃ d : InputDict, r = (m.call d none none).1 := by
  unfold RayModelWrapper.forward at h
  split at h
  · cases hu : unpack_tensor x (RayModelWrapper.obs_space m) with
    | error e => rw [hu] at h; simp at h
    | ok o =>
      rw [hu] at h
      simp only [Except.ok.injEq] at h
      exact ⟨⟨o, x⟩, h.symm⟩
  · simp only [Except.ok.injEq] at h
    exact ⟨⟨.arr x, x⟩, h.symm⟩

/-- Witness for C10 at a concrete model and input. -/
theorem forward_state_none_fst_witness :
    ∃ d : InputDict, [0] = (modelDictProbe.call d none none).1 :=
  forward_state_none_fst modelDictProbe xPair [0] rfl

unseal unpack_tensor _unpack_tensor_batched _unpack_tensor_single unpack_tensor_chunks unpack_tensor_slices in
/-- C1 counterexample: the claim has the two branches of
`RayModelWrapper.forward` swapped.  For a structured (`Dict`) observation
space the code passes the flat input straight through (a probing model
sees a leaf `"obs"` and returns `[0]`), although unpacking the input
succeeds and the claimed invocation with the structured form would return
`[1]`.  For a flat (`Box [2, 2]`) space the code unpacks (reshapes) the
input (a shape-probing model reports `[2, 2]`), although the claimed
straight-through invocation would report shape `[4]`. -/
theorem forward_branch_counterexample :
    (RayModelWrapper.forward modelDictProbe xPair = .ok [0] ∧
     unpack_tensor xPair (RayModelWrapper.obs_space modelDictProbe) =
       .ok (.map (.cons "a" (.arr ⟨[1], [1]⟩) (.cons "b" (.arr ⟨[1], [2]⟩) .nil))) ∧
     (modelDictProbe.call
        ⟨.map (.cons "a" (.arr ⟨[1], [1]⟩) (.cons "b" (.arr ⟨[1], [2]⟩) .nil)), xPair⟩
        none none).1 = [1] ∧
     ([0] : List Rat) ≠ [1]) ∧
    (RayModelWrapper.forward modelBoxProbe xQuad = .ok [2, 2] ∧
     (modelBoxProbe.call ⟨.arr xQuad, xQuad⟩ none none).1 = [4] ∧
     ([2, 2] : List Rat) ≠ [4]) := by
  refine ⟨⟨rfl, ?_, rfl, by decide⟩, ⟨?_, rfl, by decide⟩⟩
  · rfl
  · rfl

/-- C1 (amended): for every wrapped model and input, when the observation
space is NOT a `Box` the flat input is passed straight through as both the
observation and the flattened-copy field; when it IS a `Box`, the flat
input is first unpacked (reshaped to the Box's shape, per batch slice when
batched) and the unpacked form is the observation field, with the flat
input as the flattened-copy field (errors of the unpack propagate). -/
theorem forward_spec (m : RayModel) (x : Tensor) :
    (¬ (RayModelWrapper.obs_space m).isBox = true →
        RayModelWrapper.forward m x = .ok (m.call ⟨.arr x, x⟩ none none).1) ∧
    (∀ o, (RayModelWrapper.obs_space m).isBox = true →
        unpack_tensor x (RayModelWrapper.obs_space m) = .ok o →
        RayModelWrapper.forward m x = .ok (m.call ⟨o, x⟩ none none).1) ∧
    (∀ e, (RayModelWrapper.obs_space m).isBox = true →
        unpack_tensor x (RayModelWrapper.obs_space m) = .error e →
        RayModelWrapper.forward m x = .error e) := by
  refine ⟨fun h => ?_, fun o hb hu => ?_, fun e hb hu => ?_⟩
  · unfold RayModelWrapper.forward
    rw [if_neg h]
  · unfold RayModelWrapper.forward
    rw [if_pos hb, hu]
  · unfold RayModelWrapper.forward
    rw [if_pos hb, hu]

/-- Witness for C1 (amended), structured branch, at a concrete model and
input. -/
theorem forward_spec_witness :
    RayModelWrapper.forward modelDictProbe xPair =
      .ok (modelDictProbe.call ⟨.arr xPair, xPair⟩ none none).1 :=
  (forward_spec modelDictProbe xPair).1 (by decide)

/-! ## Supporting lemmas for the batched-unpack claim -/

theorem unpack_tensor_low_rank (t : Tensor) (sp : Space) (h : ¬ 1 < t.ndim) :
    unpack_tensor t sp = _unpack_tensor_single t sp := by
  unfold unpack_tensor
  rw [if_neg h]

theorem unpack_tensor_batch_dispatch (t : Tensor) (sp : Space) (h : 1 < t.ndim) :
    unpack_tensor t sp = _unpack_tensor_batched t sp := by
  unfold unpack_tensor
  rw [if_pos h]

theorem torchReshape_wf {t : Tensor} {shape : List Nat} {u : Tensor}
    (h : torchReshape t shape = .ok u) : u.wf = true := by
  unfold torchReshape at h
  split_ifs at h with hc
  injection h with h
  subst h
  simpa [Tensor.wf] using hc

theorem unpack_tensor_slices_spec : ∀ (ts : List Tensor) (sp : Space) (rs : List Obs),
    unpack_tensor_slices ts sp = .ok rs →
    rs.length = ts.length ∧
      ∀ (i : Nat) (t : Tensor), ts[i]? = some t →
        ∃ r : Obs, rs[i]? = some r ∧ unpack_tensor t sp = .ok r := by
  intro ts
  induction ts with
  | nil =>
    intro sp rs h
    simp only [unpack_tensor_slices, Except.ok.injEq] at h
    subst h
    exact ⟨rfl, by intro i t ht; simp at ht⟩
  | cons t rest ih =>
    intro sp rs h
    simp only [unpack_tensor_slices] at h
    cases hv : unpack_tensor t sp with
    | error e => rw [hv] at h; simp at h
    | ok v =>
      rw [hv] at h
      cases hvs : unpack_tensor_slices rest sp with
      | error e => rw [hvs] at h; simp at h
      | ok vs =>
        rw [hvs] at h
        simp only [Except.ok.injEq] at h
        subst h
        obtain ⟨hlen, hidx⟩ := ih sp vs hvs
        refine ⟨by simp [hlen], ?_⟩
        intro i u hu
        cases i with
        | zero =>
          simp only [List.getElem?_cons_zero, Option.some.injEq] at hu
          subst hu
          exact ⟨v, by simp, hv⟩
        | succ n =>
          simp only [List.getElem?_cons_succ] at hu ⊢
          exact hidx n u hu

theorem all_isNil_eq_nil {ess : List ObsEntries} (h : ess.all ObsEntries.isNil = true)
    {i : Nat} {x : ObsEntries} (hx : ess[i]? = some x) : x = .nil := by
  have hm : x ∈ ess := List.getElem?_mem hx
  have := List.all_eq_true.mp h x hm
  cases x with
  | nil => rfl
  | cons k v rest => simp [ObsEntries.isNil] at this

theorem leavesOf_spec : ∀ (l : List Obs) (ts : List Tensor), leavesOf l = .ok ts →
    ts.length = l.length ∧
      ∀ (i : Nat) (x : Obs), l[i]? = some x → ∃ t : Tensor, ts[i]? = some t ∧ x = .arr t := by
  intro l
  induction l with
  | nil =>
    intro ts h
    simp only [leavesOf, Except.ok.injEq] at h
    subst h
    exact ⟨rfl, by intro i x hx; simp at hx⟩
  | cons x xs ih =>
    intro ts h
    cases x with
    | map es => simp [leavesOf] at h
    | arr t =>
      simp only [leavesOf] at h
      cases hts : leavesOf xs with
      | error e => rw [hts] at h; simp at h
      | ok us =>
        rw [hts] at h
        simp only [Except.ok.injEq] at h
        subst h
        obtain ⟨hlen, hidx⟩ := ih us hts
        refine ⟨by simp [hlen], ?_⟩
        intro i y hy
        cases i with
        | zero =>
          simp only [List.getElem?_cons_zero, Option.some.injEq] at hy
          subst hy
          exact ⟨t, by simp, rfl⟩
        | succ n =>
          simp only [List.getElem?_cons_succ] at hy ⊢
          exact hidx n y hy

theorem entriesOf_spec : ∀ (l : List Obs) (ess : List ObsEntries), entriesOf l = .ok ess →
    ess.length = l.length ∧
      ∀ (i : Nat) (x : Obs), l[i]? = some x →
        ∃ es : ObsEntries, ess[i]? = some es ∧ x = .map es := by
  intro l
  induction l with
  | nil =>
    intro ess h
    simp only [entriesOf, Except.ok.injEq] at h
    subst h
    exact ⟨rfl, by intro i x hx; simp at hx⟩
  | cons x xs ih =>
    intro ess h
    cases x with
    | arr t => simp [entriesOf] at h
    | map es =>
      simp only [entriesOf] at h
      cases hts : entriesOf xs with
      | error e => rw [hts] at h; simp at h
      | ok us =>
        rw [hts] at h
        simp only [Except.ok.injEq] at h
        subst h
        obtain ⟨hlen, hidx⟩ := ih us hts
        refine ⟨by simp [hlen], ?_⟩
        intro i y hy
        cases i with
        | zero =>
          simp only [List.getElem?_cons_zero, Option.some.injEq] at hy
          subst hy
          exact ⟨es, by simp, rfl⟩
        | succ n =>
          simp only [List.getElem?_cons_succ] at hy ⊢
          exact hidx n y hy

theorem entryHeads_spec : ∀ (k : String) (ess : List ObsEntries) (vs : List Obs)
      (rs : List ObsEntries), entryHeads k ess = .ok (vs, rs) →
    vs.length = ess.length ∧ rs.length = ess.length ∧
      ∀ (i : Nat) (x : ObsEntries), ess[i]? = some x →
        ∃ (v : Obs) (r : ObsEntries), vs[i]? = some v ∧ rs[i]? = some r ∧ x = .cons k v r := by
  intro k ess
  induction ess with
  | nil =>
    intro vs rs h
    simp only [entryHeads, Except.ok.injEq, Prod.mk.injEq] at h
    obtain ⟨h1, h2⟩ := h
    subst h1; subst h2
    exact ⟨rfl, rfl, by intro i x hx; simp at hx⟩
  | cons x xs ih =>
    intro vs rs h
    cases x with
    | nil => simp [entryHeads] at h
    | cons k2 v2 rest2 =>
      simp only [entryHeads] at h
      split_ifs at h with hk
      subst hk
      cases hrec : entryHeads k2 xs with
      | error e => rw [hrec] at h; simp at h
      | ok p =>
        obtain ⟨vs2, rs2⟩ := p
        rw [hrec] at h
        simp only [Except.ok.injEq, Prod.mk.injEq] at h
        obtain ⟨h1, h2⟩ := h
        subst h1; subst h2
        obtain ⟨hl1, hl2, hidx⟩ := ih vs2 rs2 hrec
        refine ⟨by simp [hl1], by simp [hl2], ?_⟩
        intro i y hy
        cases i with
        | zero =>
          simp only [List.getElem?_cons_zero, Option.some.injEq] at hy
          subst hy
          exact ⟨v2, rest2, by simp, by simp, rfl⟩
        | succ n =>
          simp only [List.getElem?_cons_succ] at hy ⊢
          exact hidx n y hy

theorem flatten_chunk : ∀ (ls : List (List Rat)) (m i : Nat) (l : List Rat),
    (∀ x ∈ ls, x.length = m) → ls[i]? = some l →
    (ls.flatten.drop (i * m)).take m = l := by
  intro ls
  induction ls with
  | nil => intro m i l _ h; simp at h
  | cons x xs ih =>
    intro m i l hall hl
    have hx : x.length = m := hall x (by simp)
    cases i with
    | zero =>
      simp only [List.getElem?_cons_zero, Option.some.injEq] at hl
      subst hl
      rw [List.flatten_cons, Nat.zero_mul, List.drop_zero, ← hx, List.take_left]
    | succ n =>
      simp only [List.getElem?_cons_succ] at hl
      have hdrop : ((x :: xs).flatten).drop ((n + 1) * m) = xs.flatten.drop (n * m) := by
        rw [List.flatten_cons]
        have : (n + 1) * m = x.length + n * m := by rw [hx]; ring
        rw [this, List.drop_append]
      rw [hdrop]
      exact ih m n l (fun y hy => hall y (by simp [hy])) hl

theorem flatten_length_const : ∀ (ls : List (List Rat)) (m : Nat),
    (∀ l ∈ ls, l.length = m) → ls.flatten.length = ls.length * m := by
  intro ls
  induction ls with
  | nil => intro m _; simp
  | cons x xs ih =>
    intro m hall
    have hx : x.length = m := hall x (by simp)
    have := ih m fun l hl => hall l (by simp [hl])
    simp only [List.flatten_cons, List.length_append, List.length_cons, this, hx]
    ring

theorem torchStack_spec (t : Tensor) (ts : List Tensor) (T : Tensor)
    (h : torchStack (t :: ts) = .ok T)
    (hwf : t.wf = true) (hws : ∀ u ∈ ts, u.wf = true) :
    T.shape = (ts.length + 1) :: t.shape ∧ T.wf = true ∧
      ∀ (i : Nat) (u : Tensor), (t :: ts)[i]? = some u → T.slice i = u := by
  simp only [torchStack] at h
  split_ifs at h with hsh
  injection h with h
  subst h
  have hshapes : ∀ u ∈ t :: ts, u.shape = t.shape := by
    intro u hu
    rcases List.mem_cons.mp hu with rfl | hu2
    · rfl
    · simpa using List.all_eq_true.mp hsh u hu2
  have hwall : ∀ u ∈ t :: ts, u.wf = true := by
    intro u hu
    rcases List.mem_cons.mp hu with rfl | hu2
    · exact hwf
    · exact hws u hu2
  have hlens : ∀ l ∈ (t :: ts).map Tensor.data, l.length = t.shape.prod := by
    intro l hl
    obtain ⟨u, hu, rfl⟩ := List.mem_map.mp hl
    have h1 : u.data.length = u.shape.prod := by simpa [Tensor.wf] using hwall u hu
    rw [h1, hshapes u hu]
  refine ⟨rfl, ?_, ?_⟩
  · have hfl := flatten_length_const ((t :: ts).map Tensor.data) t.shape.prod hlens
    have hlen2 : ((t :: ts).map Tensor.data).flatten.length = ((ts.length + 1) :: t.shape).prod := by
      rw [hfl]
      simp only [List.length_map, List.length_cons, List.prod_cons]
    simp only [Tensor.wf, hlen2, beq_self_eq_true]
  · intro i u hu
    have hmem : u ∈ t :: ts := List.getElem?_mem hu
    have hdata : ((t :: ts).map Tensor.data)[i]? = some u.data := by
      rw [List.getElem?_map, hu]
      rfl
    have hchunk := flatten_chunk ((t :: ts).map Tensor.data) t.shape.prod i u.data hlens hdata
    have hsl : Tensor.slice ⟨(ts.length + 1) :: t.shape, ((t :: ts).map Tensor.data).flatten⟩ i =
        ⟨t.shape, (((t :: ts).map Tensor.data).flatten.drop (i * t.shape.prod)).take
          t.shape.prod⟩ := rfl
    rw [hsl, hchunk]
    obtain ⟨ush, ud⟩ := u
    simp only [Tensor.mk.injEq]
    exact ⟨(hshapes _ hmem).symm, trivial⟩

mutual
theorem tree_map_stack_spec : ∀ (first : Obs) (rest : List Obs) (R : Obs),
    tree_map_stack first rest = .ok R → wfAll first = true → (∀ r ∈ rest, wfAll r = true) →
    wfAll R = true ∧ leadAll (rest.length + 1) R = true ∧ sliceAll 0 R = first ∧
      ∀ (i : Nat) (r : Obs), rest[i]? = some r → sliceAll (i + 1) R = r
  | .arr t, rest, R, h, hwf, hrest => by
    simp only [tree_map_stack] at h
    split at h
    · simp at h
    · rename_i ts hts
      split at h
      · simp at h
      · rename_i T hT
        injection h with h
        subst h
        obtain ⟨hlen, hidx⟩ := leavesOf_spec rest ts hts
        have hws : ∀ u ∈ ts, u.wf = true := by
          intro u hu
          obtain ⟨i, hi⟩ := List.getElem?_of_mem hu
          have hilt : i < ts.length := (List.getElem?_eq_some.mp hi).1
          have hir : i < rest.length := by omega
          obtain ⟨x, hx⟩ : ∃ x, rest[i]? = some x := ⟨rest[i], List.getElem?_eq_getElem hir⟩
          obtain ⟨u2, hu2, hxu⟩ := hidx i x hx
          rw [hi] at hu2
          injection hu2 with hu2
          subst hu2
          subst hxu
          simpa [wfAll] using hrest _ (List.getElem?_mem hx)
        obtain ⟨hTsh, hTwf, hTsl⟩ := torchStack_spec t ts T hT (by simpa [wfAll] using hwf) hws
        refine ⟨by simpa [wfAll] using hTwf, ?_, ?_, ?_⟩
        · simp only [leadAll, hTsh, hlen, beq_self_eq_true]
        · have h0 := hTsl 0 t (by simp)
          simp only [sliceAll, h0]
        · intro i r hr
          obtain ⟨u, hu, hru⟩ := hidx i r hr
          have hsl := hTsl (i + 1) u (by simpa using hu)
          subst hru
          simp only [sliceAll, hsl]
  | .map es, rest, R, h, hwf, hrest => by
    simp only [tree_map_stack] at h
    split at h
    · simp at h
    · rename_i ess2 hess2
      split at h
      · simp at h
      · rename_i E hE
        injection h with h
        subst h
        obtain ⟨hlen, hidx⟩ := entriesOf_spec rest ess2 hess2
        have hesswf : ∀ x ∈ ess2, wfAllEntries x = true := by
          intro u hu
          obtain ⟨i, hi⟩ := List.getElem?_of_mem hu
          have hilt : i < ess2.length := (List.getElem?_eq_some.mp hi).1
          have hir : i < rest.length := by omega
          obtain ⟨x, hx⟩ : ∃ x, rest[i]? = some x := ⟨rest[i], List.getElem?_eq_getElem hir⟩
          obtain ⟨es2, hes2, hxe⟩ := hidx i x hx
          rw [hi] at hes2
          injection hes2 with hes2
          subst hes2
          have := hrest x (List.getElem?_mem hx)
          rw [hxe] at this
          simpa [wfAll] using this
        obtain ⟨hwfE, hleadE, hsl0E, hsliE⟩ :=
          tree_map_stack_entries_spec es ess2 E hE (by simpa [wfAll] using hwf) hesswf
        refine ⟨by simpa [wfAll] using hwfE, ?_, ?_, ?_⟩
        · simp only [leadAll]
          rw [← hlen]
          exact hleadE
        · simp only [sliceAll, hsl0E]
        · intro i r hr
          obtain ⟨es2, hes2, hxe⟩ := hidx i r hr
          subst hxe
          simp only [sliceAll, hsliE i es2 hes2]

theorem tree_map_stack_entries_spec : ∀ (es : ObsEntries) (ess : List ObsEntries)
      (E : ObsEntries),
    tree_map_stack_entries es ess = .ok E → wfAllEntries es = true →
    (∀ x ∈ ess, wfAllEntries x = true) →
    wfAllEntries E = true ∧ leadAllEntries (ess.length + 1) E = true ∧
      sliceAllEntries 0 E = es ∧
      ∀ (i : Nat) (x : ObsEntries), ess[i]? = some x → sliceAllEntries (i + 1) E = x
  | .nil, ess, E, h, hwf, hess => by
    simp only [tree_map_stack_entries] at h
    split_ifs at h with hall
    injection h with h
    subst h
    refine ⟨rfl, rfl, rfl, ?_⟩
    intro i x hx
    rw [all_isNil_eq_nil hall hx]
    rfl
  | .cons k v rest2, ess, E, h, hwf, hess => by
    simp only [tree_map_stack_entries] at h
    split at h
    · simp at h
    · rename_i vs rs hhd
      split at h
      · simp at h
      · rename_i mv hv
        split at h
        · simp at h
        · rename_i mrest hrest
          injection h with h
          subst h
          obtain ⟨hlv, hlr, hidx⟩ := entryHeads_spec k ess vs rs hhd
          have hwfv : wfAll v = true := by
            have h2 := hwf
            simp only [wfAllEntries, Bool.and_eq_true] at h2
            exact h2.1
          have hwfr2 : wfAllEntries rest2 = true := by
            have h2 := hwf
            simp only [wfAllEntries, Bool.and_eq_true] at h2
            exact h2.2
          have hvs : ∀ u ∈ vs, wfAll u = true := by
            intro u hu
            obtain ⟨i, hi⟩ := List.getElem?_of_mem hu
            have hilt : i < vs.length := (List.getElem?_eq_some.mp hi).1
            have hie : i < ess.length := by omega
            obtain ⟨x, hx⟩ : ∃ x, ess[i]? = some x := ⟨ess[i], List.getElem?_eq_getElem hie⟩
            obtain ⟨v2, r2, hv2, hr2, hxe⟩ := hidx i x hx
            rw [hi] at hv2
            injection hv2 with hv2
            subst hv2
            have h3 := hess x (List.getElem?_mem hx)
            rw [hxe] at h3
            simp only [wfAllEntries, Bool.and_eq_true] at h3
            exact h3.1
          have hrs : ∀ u ∈ rs, wfAllEntries u = true := by
            intro u hu
            obtain ⟨i, hi⟩ := List.getElem?_of_mem hu
            have hilt : i < rs.length := (List.getElem?_eq_some.mp hi).1
            have hie : i < ess.length := by omega
            obtain ⟨x, hx⟩ : ∃ x, ess[i]? = some x := ⟨ess[i], List.getElem?_eq_getElem hie⟩
            obtain ⟨v2, r2, hv2, hr2, hxe⟩ := hidx i x hx
            rw [hi] at hr2
            injection hr2 with hr2
            subst hr2
            have h3 := hess x (List.getElem?_mem hx)
            rw [hxe] at h3
            simp only [wfAllEntries, Bool.and_eq_true] at h3
            exact h3.2
          obtain ⟨hwf1, hlead1, hsl01, hsli1⟩ := tree_map_stack_spec v vs mv hv hwfv hvs
          obtain ⟨hwf2, hlead2, hsl02, hsli2⟩ :=
            tree_map_stack_entries_spec rest2 rs mrest hrest hwfr2 hrs
          refine ⟨?_, ?_, ?_, ?_⟩
          · simp only [wfAllEntries, hwf1, hwf2, Bool.and_self]
          · rw [hlv] at hlead1
            rw [hlr] at hlead2
            simp only [leadAllEntries, hlead1, hlead2, Bool.and_self]
          · simp only [sliceAllEntries, hsl01, hsl02]
          · intro i x hx
            obtain ⟨v2, r2, hv2, hr2, hxe⟩ := hidx i x hx
            subst hxe
            simp only [sliceAllEntries, hsli1 i v2 hv2, hsli2 i r2 hr2]
end

mutual
theorem unpack_tensor_wfAll : ∀ (obs : Tensor) (sp : Space) (r : Obs),
    unpack_tensor obs sp = .ok r → wfAll r = true
  | obs, sp, r, h => by
    unfold unpack_tensor at h
    split at h
    · exact _unpack_tensor_batched_wfAll obs sp r h
    · exact _unpack_tensor_single_wfAll obs sp r h
termination_by obs sp => (obs.ndim, sizeOf sp, 3, 0)
decreasing_by
  all_goals exact lex4_of (by omega)

theorem _unpack_tensor_single_wfAll : ∀ (obs : Tensor) (sp : Space) (r : Obs),
    _unpack_tensor_single obs sp = .ok r → wfAll r = true
  | obs, .box shape, r, h => by
    simp only [_unpack_tensor_single] at h
    split at h
    · simp at h
    · rename_i t ht
      injection h with h
      subst h
      simpa [wfAll] using torchReshape_wf ht
  | obs, .dict sps, r, h => by
    simp only [_unpack_tensor_single] at h
    split at h
    · simp at h
    · rename_i sizes hsizes
      split at h
      · simp at h
      · rename_i segs hsp
        split at h
        · simp at h
        · rename_i entries hent
          injection h with h
          subst h
          simpa [wfAll] using unpack_tensor_chunks_wfAll segs sps entries hent
  | obs, .other name, r, h => by simp [_unpack_tensor_single] at h
termination_by obs sp => (obs.ndim, sizeOf sp, 2, 0)
decreasing_by
  all_goals exact lex4_of (by
    have h1 := torchSplit_ranksBound (t := obs) (by assumption)
    have h2 := sizeOf_spaces_lt_dict sps
    omega)

theorem unpack_tensor_chunks_wfAll : ∀ (segs : List Tensor) (spl : SpaceList) (es : ObsEntries),
    unpack_tensor_chunks segs spl = .ok es → wfAllEntries es = true
  | segs, .nil, es, h => by
    simp only [unpack_tensor_chunks] at h
    injection h with h
    subst h
    rfl
  | [], .cons name s rest, es, h => by
    simp only [unpack_tensor_chunks] at h
    injection h with h
    subst h
    rfl
  | seg :: more, .cons name s rest, es, h => by
    simp only [unpack_tensor_chunks] at h
    split at h
    · simp at h
    · rename_i v hv
      split at h
      · simp at h
      · rename_i vs hvs
        injection h with h
        subst h
        have w1 := unpack_tensor_wfAll seg s v hv
        have w2 := unpack_tensor_chunks_wfAll more rest vs hvs
        simp only [wfAllEntries, w1, w2, Bool.and_self]
termination_by segs spl => (ranksBound segs, sizeOf spl, 1, 0)
decreasing_by
  all_goals exact lex4_of (by
    have h1 : seg.ndim ≤ ranksBound (seg :: more) := by
      rw [ranksBound_cons]; exact le_max_left _ _
    have h2 : ranksBound more ≤ ranksBound (seg :: more) := by
      rw [ranksBound_cons]; exact le_max_right _ _
    have h3 := sizeOf_head_lt_cons name s rest
    have h4 := sizeOf_rest_lt_cons name s rest
    omega)

theorem unpack_tensor_slices_wfAll : ∀ (ts : List Tensor) (sp : Space) (rs : List Obs),
    unpack_tensor_slices ts sp = .ok rs → ∀ r ∈ rs, wfAll r = true
  | [], sp, rs, h => by
    simp only [unpack_tensor_slices] at h
    injection h with h
    subst h
    intro r hr
    simp at hr
  | t :: rest, sp, rs, h => by
    simp only [unpack_tensor_slices] at h
    split at h
    · simp at h
    · rename_i v hv
      split at h
      · simp at h
      · rename_i vs hvs
        injection h with h
        subst h
        intro r hr
        rcases List.mem_cons.mp hr with rfl | hr2
        · exact unpack_tensor_wfAll t sp r hv
        · exact unpack_tensor_slices_wfAll rest sp vs hvs r hr2
termination_by ts sp => (ranksBound ts + 1, sizeOf sp, 1, ts.length)
decreasing_by
  all_goals exact lex4_of (by
    have h1 : t.ndim ≤ ranksBound (t :: rest) := by
      rw [ranksBound_cons]; exact le_max_left _ _
    have h2 : ranksBound rest ≤ ranksBound (t :: rest) := by
      rw [ranksBound_cons]; exact le_max_right _ _
    have h3 : rest.length < (t :: rest).length := by simp
    omega)

theorem _unpack_tensor_batched_wfAll : ∀ (obs : Tensor) (sp : Space) (r : Obs),
    _unpack_tensor_batched obs sp = .ok r → wfAll r = true
  | ⟨[], data⟩, sp, r, h => by simp [_unpack_tensor_batched] at h
  | ⟨n :: tl, data⟩, sp, r, h => by
    simp only [_unpack_tensor_batched] at h
    split at h
    · simp at h
    · rename_i slices hsl
      cases slices with
      | nil => simp [_merge_unpacked_batch] at h
      | cons first rest =>
        have hwfs := unpack_tensor_slices_wfAll _ sp (first :: rest) hsl
        simp only [_merge_unpacked_batch] at h
        exact (tree_map_stack_spec first rest r h (hwfs first (by simp))
          fun x hx => hwfs x (by simp [hx])).1
termination_by obs sp => (obs.ndim, sizeOf sp, 2, 0)
decreasing_by
  all_goals exact lex4_of (by
    have h1 := ranksBound_map_slice (⟨n :: tl, data⟩ : Tensor) (List.range n)
    have h2 : (⟨n :: tl, data⟩ : Tensor).ndim = tl.length + 1 := rfl
    have h3 : (⟨n :: tl, data⟩ : Tensor).shape.tail.length = tl.length := rfl
    omega)
end

/-- C5: for the tensor substrate, a rank-1 input (no leading batch
dimension) delegates to the unbatched unpack; and for a rank-greater-1
input with leading batch size `n`, whenever the batched unpack returns a
structured result, every leaf of that result carries a leading dimension
of extent `n` and, for every `i < n`, slice `i` of every leaf (the
structured slice `sliceAll i`) is exactly the unbatched unpack of input
slice `i` - i.e. the per-slice unpacks are merged by stacking
corresponding leaves along a new leading dimension. -/
theorem unpack_tensor_batch_spec (obs : Tensor) (sp : Space) (n : Nat) (tl : List Nat) (R : Obs)
    (hsh : obs.shape = n :: tl) (htl : tl ≠ [])
    (hok : unpack_tensor obs sp = .ok R) :
    (∀ t : Tensor, t.ndim = 1 → unpack_tensor t sp = _unpack_tensor_single t sp) ∧
    leadAll n R = true ∧
    ∀ i : Nat, i < n → unpack_tensor (obs.slice i) sp = .ok (sliceAll i R) := by
  refine ⟨fun t ht => unpack_tensor_low_rank t sp (by omega), ?_⟩
  obtain ⟨sh, data⟩ := obs
  simp only at hsh
  subst hsh
  have hlp : 0 < tl.length := List.length_pos.mpr htl
  have hnd : 1 < Tensor.ndim ⟨n :: tl, data⟩ := by
    simp only [Tensor.ndim, List.length_cons]
    omega
  rw [unpack_tensor_batch_dispatch _ sp hnd] at hok
  simp only [_unpack_tensor_batched] at hok
  split at hok
  · simp at hok
  · rename_i slices hsl
    obtain ⟨hlen, hidx⟩ := unpack_tensor_slices_spec _ sp slices hsl
    have hwfs := unpack_tensor_slices_wfAll _ sp slices hsl
    cases slices with
    | nil => simp [_merge_unpacked_batch] at hok
    | cons r0 rest =>
      simp only [_merge_unpacked_batch] at hok
      obtain ⟨hwfR, hlead, hsl0, hsli⟩ := tree_map_stack_spec r0 rest R hok
        (hwfs r0 (by simp)) fun x hx => hwfs x (by simp [hx])
      have hlen2 : rest.length + 1 = n := by
        simpa using hlen
      constructor
      · rw [← hlen2]
        exact hlead
      · intro i hi
        have hslice : ((List.range n).map fun b => Tensor.slice ⟨n :: tl, data⟩ b)[i]? =
            some (Tensor.slice ⟨n :: tl, data⟩ i) := by
          rw [List.getElem?_map, List.getElem?_range hi]
          rfl
        obtain ⟨r, hr, hur⟩ := hidx i _ hslice
        cases i with
        | zero =>
          simp only [List.getElem?_cons_zero, Option.some.injEq] at hr
          subst hr
          rw [hsl0]
          exact hur
        | succ j =>
          simp only [List.getElem?_cons_succ] at hr
          rw [hsli j r hr]
          exact hur

set_option maxRecDepth 8192 in
unseal unpack_tensor _unpack_tensor_batched _unpack_tensor_single unpack_tensor_chunks unpack_tensor_slices in
/-- Witness for C5 at a concrete batched input (batch size 2 over the
spec's example descriptor): the two slice equations and the leading
dimension, all obtained by applying the theorem. -/
theorem unpack_tensor_batch_spec_witness :
    leadAll 2 (Obs.map (.cons "pos" (.arr ⟨[2, 2], [1, 2, 4, 5]⟩) (.cons "vel" (.arr ⟨[2, 1], [3, 6]⟩) .nil))) = true ∧
    unpack_tensor ((⟨[2, 3], [1, 2, 3, 4, 5, 6]⟩ : Tensor).slice 0) pairSpace =
      .ok (sliceAll 0 (Obs.map (.cons "pos" (.arr ⟨[2, 2], [1, 2, 4, 5]⟩) (.cons "vel" (.arr ⟨[2, 1], [3, 6]⟩) .nil)))) ∧
    unpack_tensor ((⟨[2, 3], [1, 2, 3, 4, 5, 6]⟩ : Tensor).slice 1) pairSpace =
      .ok (sliceAll 1 (Obs.map (.cons "pos" (.arr ⟨[2, 2], [1, 2, 4, 5]⟩) (.cons "vel" (.arr ⟨[2, 1], [3, 6]⟩) .nil)))) := by
  have h := unpack_tensor_batch_spec ⟨[2, 3], [1, 2, 3, 4, 5, 6]⟩ pairSpace 2 [3]
    (Obs.map (.cons "pos" (.arr ⟨[2, 2], [1, 2, 4, 5]⟩) (.cons "vel" (.arr ⟨[2, 1], [3, 6]⟩) .nil))) rfl (by decide) rfl
  exact ⟨h.2.1, h.2.2 0 (by decide), h.2.2 1 (by decide)⟩

end Rld
